import Mathlib

/-!
Verification of the comma-delimited chunk aggregator from
`docs/docs/how_to/functions.ipynb` (`split_into_list` / `asplit_into_list`).

Strings are modelled as `List Char`.  The Python generator is modelled as a
function from the (finite) list of input fragments to the list of emitted
values; each `yield [x]` contributes one singleton list to the output.
-/

/-- Whitespace characters removed by Python's `str.strip()` (the ASCII ones;
the examples in the notebook use only spaces). -/
def isPySpace (c : Char) : Bool :=
  c = ' ' || c = '\t' || c = '\n' || c = '\r' || c = '\x0b' || c = '\x0c'

/-- Embeds Python's `s.strip()`: remove leading and trailing whitespace. -/
def strip (s : List Char) : List Char :=
  ((s.dropWhile isPySpace).reverse.dropWhile isPySpace).reverse

/-- Embeds `buffer.index(",")`: the index of the first comma of the buffer
(meaningful when the buffer contains a comma, as at its use site, which sits
under `while "," in buffer`). -/
def commaIndex : List Char → Nat
  | [] => 0
  | c :: rest => if c = ',' then 0 else commaIndex rest + 1

/-- Embeds the inner loop `while "," in buffer: ...` of `split_into_list`,
written with an explicit iteration budget to make the recursion structural:
each pass removes the first comma from the buffer, so the buffer shrinks by
at least one character per pass and `buffer.length` passes always suffice
(`drain` below applies exactly that budget; `drainFuel_eq_of_le` proves the
budget irrelevant beyond that point).  Returns the list of values yielded by
the loop, in order, and the buffer left when no comma remains. -/
def drainFuel : Nat → List Char → List (List Char) × List Char
  | 0, buffer => ([], buffer)
  | fuel + 1, buffer =>
    if ',' ∈ buffer then
      let comma_index := commaIndex buffer
      let rest := drainFuel fuel (buffer.drop (comma_index + 1))
      (strip (buffer.take comma_index) :: rest.1, rest.2)
    else ([], buffer)

/-- The `while "," in buffer` loop of `split_into_list`: yields
`buffer[:comma_index].strip()` for each comma, left to right, and keeps
`buffer[comma_index + 1:]` across iterations. -/
def drain (buffer : List Char) : List (List Char) × List Char :=
  drainFuel buffer.length buffer

/-- The `for chunk in input` loop of `split_into_list`, carrying the buffer:
append the chunk to the buffer, drain all commas (yielding a singleton list
per item), and at the end of the input yield the stripped remaining buffer. -/
def splitGo (buffer : List Char) : List (List Char) → List (List (List Char))
  | [] => [[strip buffer]]
  | chunk :: rest =>
    (drain (buffer ++ chunk)).1.map (fun item => [item]) ++
      splitGo (drain (buffer ++ chunk)).2 rest

/-- Embeds `split_into_list` from `docs/docs/how_to/functions.ipynb`:
the buffer starts empty (`buffer = ""`). -/
def split_into_list (input : List (List Char)) : List (List (List Char)) :=
  splitGo [] input

/-- The `while "," in buffer` loop of `asplit_into_list` (verbatim the same
code as in `split_into_list`), with the same explicit iteration budget. -/
def adrainFuel : Nat → List Char → List (List Char) × List Char
  | 0, buffer => ([], buffer)
  | fuel + 1, buffer =>
    if ',' ∈ buffer then
      let comma_index := commaIndex buffer
      let rest := adrainFuel fuel (buffer.drop (comma_index + 1))
      (strip (buffer.take comma_index) :: rest.1, rest.2)
    else ([], buffer)

/-- The comma-draining loop of `asplit_into_list`. -/
def adrain (buffer : List Char) : List (List Char) × List Char :=
  adrainFuel buffer.length buffer

/-- The `async for chunk in input` loop of `asplit_into_list`.  In the
shallow embedding the cooperative suspension at fragment retrieval has no
observable effect on the produced sequence, so the loop is modelled exactly
like the synchronous one, from its own (textually identical) source. -/
def asplitGo (buffer : List Char) : List (List Char) → List (List (List Char))
  | [] => [[strip buffer]]
  | chunk :: rest =>
    (adrain (buffer ++ chunk)).1.map (fun item => [item]) ++
      asplitGo (adrain (buffer ++ chunk)).2 rest

/-- Embeds `asplit_into_list` from `docs/docs/how_to/functions.ipynb`. -/
def asplit_into_list (input : List (List Char)) : List (List (List Char)) :=
  asplitGo [] input

/-- The values yielded while the `for` loop is still running, i.e. the
output of `split_into_list` without the final `yield [buffer.strip()]`. -/
def splitNoFlush (buffer : List Char) : List (List Char) → List (List (List Char))
  | [] => []
  | chunk :: rest =>
    (drain (buffer ++ chunk)).1.map (fun item => [item]) ++
      splitNoFlush (drain (buffer ++ chunk)).2 rest

/-- The buffer held at a fragment-retrieval boundary: its value after the
given fragments have been consumed and drained. -/
def finalBuffer (buffer : List Char) : List (List Char) → List Char
  | [] => buffer
  | chunk :: rest => finalBuffer (drain (buffer ++ chunk)).2 rest

/-- Embeds `split_into_list` run against a fragment source that either
finishes normally (`Except.ok`) or raises after its last fragment
(`Except.error e`).  Per Python generator semantics a `for` loop re-raises
the iterator's exception at the retrieval point, so the trailing
`yield [buffer.strip()]` is skipped, the values yielded so far stand, and
the error reaches the consumer: the second component reports it. -/
def splitGoE {ε : Type} (buffer : List Char) :
    List (List Char) → Except ε Unit → List (List (List Char)) × Option ε
  | [], Except.ok _ => ([[strip buffer]], none)
  | [], Except.error e => ([], some e)
  | chunk :: rest, ending =>
    ((drain (buffer ++ chunk)).1.map (fun item => [item]) ++
        (splitGoE (drain (buffer ++ chunk)).2 rest ending).1,
      (splitGoE (drain (buffer ++ chunk)).2 rest ending).2)

/-- `split_into_list` against a fragment source with an explicit outcome:
the emitted values together with the propagated failure, if any. -/
def split_into_listE {ε : Type} (input : List (List Char)) (ending : Except ε Unit) :
    List (List (List Char)) × Option ε :=
  splitGoE [] input ending

/-- Concatenation of all input fragments (the total text of the stream). -/
def concatAll (frags : List (List Char)) : List Char :=
  frags.foldr (· ++ ·) []

/-- Splitting a string on the literal comma character: the comma-separated
segments, in order ( the empty string has one segment, itself).  This is the
specification-side description of the segmentation; the theorems relate the
embedded loops to it. -/
def splitComma : List Char → List (List Char)
  | [] => [[]]
  | c :: rest =>
    match splitComma rest with
    | [] => [[]]
    | seg :: segs => if c = ',' then [] :: seg :: segs else (c :: seg) :: segs

/-- Joining items with `", "`, as in the round-trip property of the spec. -/
def joinCS (items : List (List Char)) : List Char :=
  List.intercalate [',', ' '] items

-- Sanity checks of the embedding on the notebook's examples.
example : split_into_list [['a', ','], ['b', ',', 'c'], [',', 'd']] =
    [[['a']], [['b']], [['c']], [['d']]] := by decide

example : split_into_list [[], [','], []] = [[[]], [[]]] := by decide

example : split_into_list [['x']] = [[['x']]] := by decide

example :
    split_into_list [[' ', 'l', 'i', 'o', 'n', ' ', ',', ' ', 't', 'i', 'g', 'e', 'r', ' ']] =
    [[['l', 'i', 'o', 'n']], [['t', 'i', 'g', 'e', 'r']]] := by decide

/-! ## Basic facts about `splitComma` -/

/-- Splitting always produces at least one segment. -/
theorem splitComma_ne_nil : ∀ s : List Char, splitComma s ≠ []
  | [] => by simp [splitComma]
  | c :: rest => by
    simp only [splitComma]
    rcases hr : splitComma rest with _ | ⟨seg, segs⟩
    · simp
    · by_cases hc : c = ',' <;> simp [hc]

/-- A leading comma contributes an empty leading segment. -/
theorem splitComma_comma_cons (t : List Char) :
    splitComma (',' :: t) = [] :: splitComma t := by
  simp only [splitComma]
  rcases ht : splitComma t with _ | ⟨seg, segs⟩
  · exact absurd ht (splitComma_ne_nil t)
  · simp

/-- A leading non-comma character extends the first segment. -/
theorem splitComma_cons_of_ne {c : Char} (hc : c ≠ ',') (t : List Char)
    {seg : List Char} {segs : List (List Char)} (ht : splitComma t = seg :: segs) :
    splitComma (c :: t) = (c :: seg) :: segs := by
  simp only [splitComma, ht, if_neg hc]

/-- A comma-free string is a single segment. -/
theorem splitComma_eq_single {s : List Char} (h : ',' ∉ s) : splitComma s = [s] := by
  induction s with
  | nil => rfl
  | cons c rest ih =>
    have hc : c ≠ ',' := fun hceq => h (hceq ▸ List.mem_cons_self c rest)
    have hrest : ',' ∉ rest := fun hm => h (List.mem_cons_of_mem c hm)
    exact splitComma_cons_of_ne hc rest (ih hrest)

/-- No segment produced by splitting contains a comma. -/
theorem not_comma_of_mem_splitComma :
    ∀ {s seg : List Char}, seg ∈ splitComma s → ',' ∉ seg := by
  intro s
  induction s with
  | nil =>
    intro seg hseg
    simp only [splitComma, List.mem_singleton] at hseg
    simp [hseg]
  | cons c rest ih =>
    intro seg hseg
    rcases hr : splitComma rest with _ | ⟨sg, sgs⟩
    · exact absurd hr (splitComma_ne_nil rest)
    by_cases hc : c = ','
    · subst hc
      rw [splitComma_comma_cons, hr] at hseg
      rcases List.mem_cons.mp hseg with h1 | h2
      · simp [h1]
      · exact ih (hr ▸ h2)
    · rw [splitComma_cons_of_ne hc rest hr] at hseg
      rcases List.mem_cons.mp hseg with h1 | h2
      · subst h1
        intro hmem
        rcases List.mem_cons.mp hmem with h3 | h4
        · exact hc h3.symm
        · exact ih (hr ▸ List.mem_cons_self sg sgs) h4
      · exact ih (hr ▸ List.mem_cons_of_mem sg h2)

/-- Splitting around the first comma: a comma-free part before a comma
becomes the first segment. -/
theorem splitComma_append_comma :
    ∀ {pre : List Char}, ',' ∉ pre → ∀ post : List Char,
      splitComma (pre ++ ',' :: post) = pre :: splitComma post := by
  intro pre
  induction pre with
  | nil => intro _ post; simpa using splitComma_comma_cons post
  | cons c pre' ih =>
    intro h post
    have hc : c ≠ ',' := fun hceq => h (hceq ▸ List.mem_cons_self c pre')
    have hp : ',' ∉ pre' := fun hm => h (List.mem_cons_of_mem c hm)
    rcases hcall : splitComma (pre' ++ ',' :: post) with _ | ⟨sg, sgs⟩
    · exact absurd hcall (splitComma_ne_nil _)
    · have := ih hp post
      rw [hcall] at this
      cases this
      rw [List.cons_append, splitComma_cons_of_ne hc _ hcall]

/-! ## Helpers about `List.getLastD` -/

/-- On a nonempty list the default of `getLastD` is irrelevant. -/
theorem getLastD_congr {α : Type} :
    ∀ (l : List α), l ≠ [] → ∀ d d' : α, l.getLastD d = l.getLastD d' := by
  intro l hl d d'
  cases l with
  | nil => exact absurd rfl hl
  | cons a t => rw [List.getLastD_cons, List.getLastD_cons]

/-- On a nonempty list `getLastD` returns an element of the list. -/
theorem getLastD_mem {α : Type} : ∀ (l : List α) (d : α), l ≠ [] → l.getLastD d ∈ l := by
  intro l
  induction l with
  | nil => intro d h; exact absurd rfl h
  | cons a t ih =>
    intro d _
    rw [List.getLastD_cons]
    cases t with
    | nil => simp [List.getLastD]
    | cons b t' => exact List.mem_cons_of_mem a (ih a (by simp))

/-! ## Facts about `commaIndex` -/

/-- Taking up to the first comma and dropping past it decomposes the buffer. -/
theorem commaIndex_decomp :
    ∀ {s : List Char}, ',' ∈ s →
      s.take (commaIndex s) ++ ',' :: s.drop (commaIndex s + 1) = s := by
  intro s
  induction s with
  | nil => intro h; simp at h
  | cons c rest ih =>
    intro h
    by_cases hc : c = ','
    · subst hc; simp [commaIndex]
    · have hmem : ',' ∈ rest := by
        rcases List.mem_cons.mp h with h1 | h2
        · exact absurd h1.symm hc
        · exact h2
      simp only [commaIndex, if_neg hc, List.take_succ_cons, List.drop_succ_cons,
        List.cons_append, List.cons.injEq, true_and]
      exact ih hmem

/-- Everything before the first comma is comma-free. -/
theorem not_comma_take_commaIndex : ∀ s : List Char, ',' ∉ s.take (commaIndex s) := by
  intro s
  induction s with
  | nil => simp
  | cons c rest ih =>
    by_cases hc : c = ','
    · subst hc; simp [commaIndex]
    · simp only [commaIndex, if_neg hc, List.take_succ_cons]
      intro hmem
      rcases List.mem_cons.mp hmem with h1 | h2
      · exact hc h1.symm
      · exact ih h2

/-! ## Characterization of the draining loop -/

/-- With enough fuel, the loop yields the stripped segments before each
comma, in order, and leaves the final (comma-free) segment as the buffer. -/
theorem drainFuel_eq_of_le :
    ∀ (fuel : Nat) (s : List Char), s.length ≤ fuel →
      drainFuel fuel s =
        (((splitComma s).dropLast).map strip, (splitComma s).getLastD []) := by
  intro fuel
  induction fuel with
  | zero =>
    intro s hs
    have hnil : s = [] := List.length_eq_zero.mp (Nat.le_zero.mp hs)
    subst hnil
    rfl
  | succ fuel ih =>
    intro s hs
    by_cases hmem : ',' ∈ s
    · have hdec := commaIndex_decomp hmem
      have hpre : ',' ∉ s.take (commaIndex s) := not_comma_take_commaIndex s
      have hsplit : splitComma s =
          s.take (commaIndex s) :: splitComma (s.drop (commaIndex s + 1)) := by
        conv_lhs => rw [← hdec]
        exact splitComma_append_comma hpre _
      have hlen : (s.drop (commaIndex s + 1)).length ≤ fuel := by
        have h1 : (s.take (commaIndex s)).length + (1 + (s.drop (commaIndex s + 1)).length)
            = s.length := by
          conv_rhs => rw [← hdec]
          simp [List.length_append]
          omega
        omega
      have hrec := ih (s.drop (commaIndex s + 1)) hlen
      have hne := splitComma_ne_nil (s.drop (commaIndex s + 1))
      simp only [drainFuel, if_pos hmem, hrec, hsplit,
        List.dropLast_cons_of_ne_nil hne, List.getLastD_cons, List.map_cons]
      rw [getLastD_congr _ hne (List.take (commaIndex s) s) ([] : List Char)]
    · simp only [drainFuel, if_neg hmem, splitComma_eq_single hmem]
      rfl

/-- The drain step, characterized through `splitComma`. -/
theorem drain_eq (s : List Char) :
    drain s = (((splitComma s).dropLast).map strip, (splitComma s).getLastD []) :=
  drainFuel_eq_of_le s.length s le_rfl

/-! ## Splitting a concatenation -/

/-- Prepending one element to a nonempty list does not change its last
element (single-step form, convenient for rewriting). -/
theorem getLastD_cons_of_ne_nil {α : Type} (l : List α) (h : l ≠ []) (a d : α) :
    (a :: l).getLastD d = l.getLastD d := by
  rw [List.getLastD_cons]
  exact getLastD_congr l h a d

/-- Splitting `a ++ b` keeps all complete segments of `a` and continues the
last (partial) segment of `a` into `b`.  This is the algebraic heart of the
aggregator: it is why draining fragment by fragment re-creates the
segmentation of the whole text. -/
theorem splitComma_append :
    ∀ a b : List Char,
      splitComma (a ++ b) =
        (splitComma a).dropLast ++ splitComma ((splitComma a).getLastD [] ++ b) := by
  intro a
  induction a with
  | nil => intro b; simp [splitComma]
  | cons c a' ih =>
    intro b
    rcases hsa : splitComma a' with _ | ⟨sg, sgs⟩
    · exact absurd hsa (splitComma_ne_nil a')
    by_cases hc : c = ','
    · subst hc
      have hne : (sg :: sgs) ≠ [] := by simp
      rw [List.cons_append, splitComma_comma_cons, splitComma_comma_cons, ih b, hsa,
        List.dropLast_cons_of_ne_nil hne, getLastD_cons_of_ne_nil _ hne,
        List.cons_append]
    · cases sgs with
      | nil =>
        have hca : splitComma (c :: a') = [c :: sg] := splitComma_cons_of_ne hc a' hsa
        have hib : splitComma (a' ++ b) = splitComma (sg ++ b) := by
          rw [ih b, hsa]
          simp [List.getLastD_cons]
        rcases hsb : splitComma (sg ++ b) with _ | ⟨u, us⟩
        · exact absurd hsb (splitComma_ne_nil _)
        rw [List.cons_append, splitComma_cons_of_ne hc _ (hib.trans hsb), hca]
        simp only [List.dropLast_single, List.getLastD_cons, List.getLastD_nil,
          List.nil_append, List.cons_append]
        rw [splitComma_cons_of_ne hc _ hsb]
      | cons sg2 sgs' =>
        have hne : (sg2 :: sgs') ≠ [] := by simp
        have hca : splitComma (c :: a') = (c :: sg) :: sg2 :: sgs' :=
          splitComma_cons_of_ne hc a' hsa
        have hib : splitComma (a' ++ b) =
            sg :: ((sg2 :: sgs').dropLast ++
              splitComma ((sg2 :: sgs').getLastD [] ++ b)) := by
          rw [ih b, hsa, List.dropLast_cons_of_ne_nil hne,
            getLastD_cons_of_ne_nil _ hne, List.cons_append]
        rw [List.cons_append, splitComma_cons_of_ne hc _ hib, hca,
          List.dropLast_cons_of_ne_nil hne, getLastD_cons_of_ne_nil _ hne,
          List.cons_append]

/-! ## Characterization of the whole run -/

/-- Running the fragment loop from a comma-free buffer emits exactly the
comma-separated segments of `buffer ++ concatAll frags`, each stripped and
wrapped in a singleton list. -/
theorem splitGo_eq :
    ∀ (frags : List (List Char)) (buffer : List Char), ',' ∉ buffer →
      splitGo buffer frags =
        (splitComma (buffer ++ concatAll frags)).map (fun seg => [strip seg]) := by
  intro frags
  induction frags with
  | nil =>
    intro buffer hb
    show [[strip buffer]] = _
    rw [show concatAll [] = [] from rfl, List.append_nil, splitComma_eq_single hb]
    rfl
  | cons chunk rest ih =>
    intro buffer hb
    have hd := drain_eq (buffer ++ chunk)
    have hne := splitComma_ne_nil (buffer ++ chunk)
    have hb2 : ',' ∉ (drain (buffer ++ chunk)).2 := by
      rw [hd]
      exact not_comma_of_mem_splitComma (getLastD_mem _ _ hne)
    show (drain (buffer ++ chunk)).1.map (fun item => [item]) ++
        splitGo (drain (buffer ++ chunk)).2 rest = _
    rw [ih _ hb2, show concatAll (chunk :: rest) = chunk ++ concatAll rest from rfl,
      ← List.append_assoc, splitComma_append (buffer ++ chunk) (concatAll rest), hd,
      List.map_append, List.map_map]
    rfl

/-- The emitted sequence depends only on the concatenated text: it is the
list of stripped comma-separated segments, each in a singleton list. -/
theorem split_into_list_eq (frags : List (List Char)) :
    split_into_list frags =
      (splitComma (concatAll frags)).map (fun seg => [strip seg]) := by
  have h := splitGo_eq frags [] (by simp)
  rw [List.nil_append] at h
  exact h

/-! ## Facts about `strip` -/

/-- Whatever `dropWhile` leaves starts with a character failing the test. -/
theorem head_dropWhile_eq_false (p : Char → Bool) :
    ∀ (l : List Char) (c : Char), (l.dropWhile p).head? = some c → p c = false := by
  intro l
  induction l with
  | nil => intro c h; simp [List.dropWhile] at h
  | cons a t ih =>
    intro c h
    by_cases hp : p a
    · rw [List.dropWhile_cons_of_pos hp] at h
      exact ih c h
    · rw [List.dropWhile_cons_of_neg hp] at h
      simp only [List.head?_cons, Option.some.injEq] at h
      subst h
      exact Bool.of_not_eq_true hp

/-- A list whose head fails the test is unchanged by `dropWhile`. -/
theorem dropWhile_eq_self_of_head (p : Char → Bool) (l : List Char)
    (h : ∀ c : Char, l.head? = some c → p c = false) : l.dropWhile p = l := by
  cases l with
  | nil => rfl
  | cons a t =>
    have := h a rfl
    simp [List.dropWhile, this]

/-- `dropWhile` is idempotent. -/
theorem dropWhile_dropWhile (p : Char → Bool) (l : List Char) :
    (l.dropWhile p).dropWhile p = l.dropWhile p :=
  dropWhile_eq_self_of_head p _ (head_dropWhile_eq_false p l)

/-- A stripped string does not begin with whitespace. -/
theorem head_strip_eq_false (s : List Char) :
    ∀ c : Char, (strip s).head? = some c → isPySpace c = false := by
  intro c hc
  obtain ⟨t, ht⟩ := List.dropWhile_suffix (l := (s.dropWhile isPySpace).reverse) isPySpace
  have hrev : strip s ++ t.reverse = s.dropWhile isPySpace := by
    have := congrArg List.reverse ht
    simpa [strip, List.reverse_append] using this
  rcases hstr : strip s with _ | ⟨a, r⟩
  · rw [hstr] at hc
    simp at hc
  · have hhead : (s.dropWhile isPySpace).head? = some a := by
      rw [← hrev, hstr]
      simp
    rw [hstr] at hc
    simp only [List.head?_cons, Option.some.injEq] at hc
    subst hc
    exact head_dropWhile_eq_false isPySpace s a hhead

/-- Stripping is idempotent. -/
theorem strip_strip (s : List Char) : strip (strip s) = strip s := by
  have h1 : (strip s).dropWhile isPySpace = strip s :=
    dropWhile_eq_self_of_head _ _ (head_strip_eq_false s)
  show (((strip s).dropWhile isPySpace).reverse.dropWhile isPySpace).reverse = strip s
  rw [h1]
  have h2 : (strip s).reverse = (s.dropWhile isPySpace).reverse.dropWhile isPySpace := by
    rw [strip, List.reverse_reverse]
  rw [h2, dropWhile_dropWhile]
  rfl

/-- Every character of a stripped string is a character of the original. -/
theorem mem_of_mem_strip {c : Char} {s : List Char} (h : c ∈ strip s) : c ∈ s := by
  have h1 : c ∈ (s.dropWhile isPySpace).reverse.dropWhile isPySpace := by
    simpa [strip] using h
  have h2 : c ∈ (s.dropWhile isPySpace).reverse :=
    (List.dropWhile_suffix isPySpace).subset h1
  have h3 : c ∈ s.dropWhile isPySpace := by simpa using h2
  exact (List.dropWhile_suffix isPySpace).subset h3

/-! ## Counting segments -/

/-- The number of segments is the number of commas plus one. -/
theorem splitComma_length : ∀ s : List Char, (splitComma s).length = s.count ',' + 1 := by
  intro s
  induction s with
  | nil => rfl
  | cons c rest ih =>
    rcases hr : splitComma rest with _ | ⟨sg, sgs⟩
    · exact absurd hr (splitComma_ne_nil rest)
    have hlen : (sg :: sgs).length = rest.count ',' + 1 := hr ▸ ih
    by_cases hc : c = ','
    · subst hc
      rw [splitComma_comma_cons, hr]
      simp only [List.length_cons, List.count_cons, hlen]
      simp
    · rw [splitComma_cons_of_ne hc rest hr]
      simp only [List.length_cons, List.count_cons] at hlen ⊢
      have hcc : (c == ',') = false := beq_eq_false_iff_ne.mpr hc
      rw [hcc]
      simp only [Bool.false_eq_true, if_false]
      omega

/-! ## The final flush, the error model, and the asynchronous variant -/

/-- The output of a run is exactly the values yielded inside the fragment
loop followed by the single final flush of the remaining buffer. -/
theorem splitGo_flush :
    ∀ (frags : List (List Char)) (buffer : List Char),
      splitGo buffer frags =
        splitNoFlush buffer frags ++ [[strip (finalBuffer buffer frags)]] := by
  intro frags
  induction frags with
  | nil => intro buffer; rfl
  | cons chunk rest ih =>
    intro buffer
    show (drain (buffer ++ chunk)).1.map (fun item => [item]) ++
        splitGo (drain (buffer ++ chunk)).2 rest = _
    rw [ih, show splitNoFlush buffer (chunk :: rest) =
        (drain (buffer ++ chunk)).1.map (fun item => [item]) ++
          splitNoFlush (drain (buffer ++ chunk)).2 rest from rfl,
      List.append_assoc]
    rfl

/-- Against an erroring source, the run emits exactly the in-loop values
and reports the error; there is no final flush. -/
theorem splitGoE_error {ε : Type} :
    ∀ (frags : List (List Char)) (buffer : List Char) (e : ε),
      splitGoE buffer frags (Except.error e) = (splitNoFlush buffer frags, some e) := by
  intro frags
  induction frags with
  | nil => intro buffer e; rfl
  | cons chunk rest ih =>
    intro buffer e
    show ((drain (buffer ++ chunk)).1.map (fun item => [item]) ++
        (splitGoE (drain (buffer ++ chunk)).2 rest (Except.error e)).1,
      (splitGoE (drain (buffer ++ chunk)).2 rest (Except.error e)).2) = _
    rw [ih]
    rfl

/-- Against a normally terminating source, the run with explicit outcome
coincides with the plain run and reports no error. -/
theorem splitGoE_ok {ε : Type} :
    ∀ (frags : List (List Char)) (buffer : List Char) (u : Unit),
      splitGoE (ε := ε) buffer frags (Except.ok u) = (splitGo buffer frags, none) := by
  intro frags
  induction frags with
  | nil => intro buffer u; rfl
  | cons chunk rest ih =>
    intro buffer u
    show ((drain (buffer ++ chunk)).1.map (fun item => [item]) ++
        (splitGoE (drain (buffer ++ chunk)).2 rest (Except.ok u)).1,
      (splitGoE (drain (buffer ++ chunk)).2 rest (Except.ok u)).2) = _
    rw [ih]
    rfl

/-- The two textually identical draining loops compute the same function. -/
theorem adrainFuel_eq_drainFuel :
    ∀ (fuel : Nat) (buffer : List Char), adrainFuel fuel buffer = drainFuel fuel buffer := by
  intro fuel
  induction fuel with
  | zero => intro buffer; rfl
  | succ fuel ih =>
    intro buffer
    by_cases h : ',' ∈ buffer <;> simp [adrainFuel, drainFuel, h, ih]

/-- The two drain steps agree. -/
theorem adrain_eq_drain (buffer : List Char) : adrain buffer = drain buffer :=
  adrainFuel_eq_drainFuel buffer.length buffer

/-- The two fragment loops agree. -/
theorem asplitGo_eq_splitGo :
    ∀ (frags : List (List Char)) (buffer : List Char),
      asplitGo buffer frags = splitGo buffer frags := by
  intro frags
  induction frags with
  | nil => intro buffer; rfl
  | cons chunk rest ih =>
    intro buffer
    show (adrain (buffer ++ chunk)).1.map (fun item => [item]) ++
        asplitGo (adrain (buffer ++ chunk)).2 rest = _
    rw [adrain_eq_drain, ih]
    rfl

/-- At every fragment-retrieval boundary the buffer is comma-free: the
drained buffer left by any fragment step contains no comma, and the
initial buffer is empty. -/
theorem finalBuffer_not_comma :
    ∀ (frags : List (List Char)) (buffer : List Char),
      ',' ∉ buffer → ',' ∉ finalBuffer buffer frags := by
  intro frags
  induction frags with
  | nil => intro buffer hb; exact hb
  | cons chunk rest ih =>
    intro buffer _
    have hb2 : ',' ∉ (drain (buffer ++ chunk)).2 := by
      rw [drain_eq]
      exact not_comma_of_mem_splitComma
        (getLastD_mem _ _ (splitComma_ne_nil (buffer ++ chunk)))
    exact ih _ hb2

/-- Flattening singleton wrappers recovers the wrapped values. -/
theorem flatten_map_singleton (f : List Char → List Char) :
    ∀ l : List (List Char), (l.map (fun x => [f x])).flatten = l.map f := by
  intro l
  induction l with
  | nil => rfl
  | cons x t ih => simp [ih]

/-! ## The claims -/

/-- C1, counterexample: for the single fragment `"a,b"` the emitted items
are `"a"` and `"b"`; rejoined with `", "` they give `"a, b"`, which differs
from the trimmed input `"a,b"`, so the round-trip claim fails as stated. -/
theorem C1_roundtrip_counterexample :
    ¬ (strip (joinCS ((split_into_list [['a', ',', 'b']]).flatten)) =
        strip (concatAll [['a', ',', 'b']])) := by
  decide

/-- C1, amended: for every finite sequence of input fragments whose
concatenation already equals its own stripped comma-separated segments
rejoined with `", "` (each comma followed by exactly one space, no other
whitespace at segment boundaries), joining all items emitted by
`split_into_list` with `", "` and trimming reproduces the trimmed
concatenation of all input fragments.  In general the aggregator trims
whitespace around each segment, so the round trip holds only up to that
normalization. -/
theorem C1_roundtrip (frags : List (List Char))
    (h : concatAll frags = joinCS ((splitComma (concatAll frags)).map strip)) :
    strip (joinCS ((split_into_list frags).flatten)) = strip (concatAll frags) := by
  rw [split_into_list_eq, flatten_map_singleton, ← h]

/-- Witness for C1 (amended) at the fragments `["a, b"]`. -/
theorem C1_roundtrip_witness :
    (concatAll [['a', ',', ' ', 'b']] =
        joinCS ((splitComma (concatAll [['a', ',', ' ', 'b']])).map strip)) ∧
      strip (joinCS ((split_into_list [['a', ',', ' ', 'b']]).flatten)) =
        strip (concatAll [['a', ',', ' ', 'b']]) :=
  ⟨by decide, C1_roundtrip [['a', ',', ' ', 'b']] (by decide)⟩

/-- C2: two fragmentations of the same total text make `split_into_list`
emit exactly the same sequence (fragment-boundary independence). -/
theorem C2_fragment_boundary_independence
    (f1 f2 : List (List Char)) (h : concatAll f1 = concatAll f2) :
    split_into_list f1 = split_into_list f2 := by
  rw [split_into_list_eq, split_into_list_eq, h]

/-- Witness for C2 at the fragmentations `["a,", "b"]` and `["a", ",b"]`. -/
theorem C2_fragment_boundary_independence_witness :
    (concatAll [['a', ','], ['b']] = concatAll [['a'], [',', 'b']]) ∧
      split_into_list [['a', ','], ['b']] = split_into_list [['a'], [',', 'b']] :=
  ⟨by decide, C2_fragment_boundary_independence _ _ (by decide)⟩

/-- C3: on every finite fragment sequence the asynchronous aggregator
`asplit_into_list` produces exactly the output of the synchronous
`split_into_list`. -/
theorem C3_async_agrees_with_sync (frags : List (List Char)) :
    asplit_into_list frags = split_into_list frags :=
  asplitGo_eq_splitGo frags []

/-- C4: after the last fragment the run emits exactly one final value, the
trimmed remaining buffer, after the in-loop emissions; and the single
comma-free fragment `"x"` yields the single emission `["x"]`, produced only
at end of input (no in-loop emission). -/
theorem C4_final_flush :
    (∀ frags : List (List Char),
        split_into_list frags =
          splitNoFlush [] frags ++ [[strip (finalBuffer [] frags)]]) ∧
      splitNoFlush [] [['x']] = [] ∧ split_into_list [['x']] = [[['x']]] :=
  ⟨fun frags => splitGo_flush frags [], by decide, by decide⟩

/-- C5: within one fragment step all commas are drained left to right (the
drain loop yields the stripped segments before each comma, in segment
order), and at every fragment-retrieval boundary the buffer is comma-free. -/
theorem C5_drained_between_fragments :
    (∀ buffer : List Char,
        (drain buffer).1 = ((splitComma buffer).dropLast).map strip) ∧
      ∀ (frags : List (List Char)) (k : Nat),
        ',' ∉ finalBuffer [] (frags.take k) := by
  constructor
  · intro buffer
    rw [drain_eq]
  · intro frags k
    exact finalBuffer_not_comma (frags.take k) [] (by simp)

/-- Witness for C5: the buffer is comma-free at the boundary after the
fragment `","` is consumed. -/
theorem C5_drained_between_fragments_witness :
    ',' ∉ finalBuffer [] ([[',']].take 1) :=
  C5_drained_between_fragments.2 [[',']] 1

/-- C6: if the source fails after a prefix of fragments, the run emits
exactly the values produced from that prefix (the synchronous output minus
its final flush), performs no flush of the partial buffer, and propagates
the same failure. -/
theorem C6_error_propagation {ε : Type} (pre : List (List Char)) (e : ε) :
    split_into_listE pre (Except.error e) = ((split_into_list pre).dropLast, some e) ∧
      (split_into_list pre).dropLast = splitNoFlush [] pre := by
  have hdrop : (split_into_list pre).dropLast = splitNoFlush [] pre := by
    rw [split_into_list, splitGo_flush pre [], List.dropLast_concat]
  constructor
  · rw [split_into_listE, splitGoE_error, hdrop]
  · exact hdrop

/-- C7: the fragments `["a,", "b,c", ",d"]` make `split_into_list` emit
exactly `["a"]`, `["b"]`, `["c"]`, `["d"]`, in that order. -/
theorem C7_example_abcd :
    split_into_list [['a', ','], ['b', ',', 'c'], [',', 'd']] =
      [[['a']], [['b']], [['c']], [['d']]] := by
  decide

/-- C8: the fragments `["", ",", ""]` make `split_into_list` emit exactly
two empty items: `[""]` when the comma is drained, then `[""]` at end of
input. -/
theorem C8_example_empty_items :
    split_into_list [[], [','], []] = [[[]], [[]]] := by
  decide

/-- C9: every emitted item is already stripped of leading and trailing
whitespace, and the single fragment `" lion , tiger "` yields `["lion"]`
then the final `["tiger"]`. -/
theorem C9_items_trimmed :
    (∀ (frags : List (List Char)) (em : List (List Char)),
        em ∈ split_into_list frags → ∀ item ∈ em, strip item = item) ∧
      split_into_list
          [[' ', 'l', 'i', 'o', 'n', ' ', ',', ' ', 't', 'i', 'g', 'e', 'r', ' ']] =
        [[['l', 'i', 'o', 'n']], [['t', 'i', 'g', 'e', 'r']]] := by
  constructor
  · intro frags em hem item hitem
    rw [split_into_list_eq] at hem
    rcases List.mem_map.mp hem with ⟨seg, _, rfl⟩
    rcases List.mem_singleton.mp hitem with rfl
    exact strip_strip seg
  · decide

/-- Witness for C9 at the fragments `["a"]` and the emission `["a"]`. -/
theorem C9_items_trimmed_witness : strip ['a'] = ['a'] :=
  C9_items_trimmed.1 [['a']] [['a']] (by decide) ['a'] (by decide)

/-- C10: the number of emitted lists is the number of commas of the
concatenated input plus one, each emitted list is a singleton, and no
emitted item contains a comma. -/
theorem C10_emission_count_and_shape (frags : List (List Char)) :
    (split_into_list frags).length = (concatAll frags).count ',' + 1 ∧
      ∀ em ∈ split_into_list frags, ∃ item, em = [item] ∧ ',' ∉ item := by
  constructor
  · rw [split_into_list_eq, List.length_map, splitComma_length]
  · intro em hem
    rw [split_into_list_eq] at hem
    rcases List.mem_map.mp hem with ⟨seg, hseg, rfl⟩
    exact ⟨strip seg, rfl,
      fun hc => not_comma_of_mem_splitComma hseg (mem_of_mem_strip hc)⟩

/-- Witness for C10 at the fragments `["a,b"]` and the emission `["a"]`. -/
theorem C10_emission_count_and_shape_witness :
    ((split_into_list [['a', ',', 'b']]).length =
        (concatAll [['a', ',', 'b']]).count ',' + 1) ∧
      ∃ item, [['a']] = [item] ∧ ',' ∉ item :=
  ⟨(C10_emission_count_and_shape [['a', ',', 'b']]).1,
    (C10_emission_count_and_shape [['a', ',', 'b']]).2 [['a']] (by decide)⟩
